import Mathlib

/-!
Verification of the PDG-WLCodeSimilarity repository.

The repository builds a simplified Program Dependence Graph (PDG) from a C
statement tree (`src/pdg_generator.py`) and scores the similarity of two such
graphs with a Weisfeiler-Lehman kernel (`src/wl_kernel.py`).  This file gives
a shallow embedding of both components and proves or refutes the frozen
claims about them.

Modelling conventions:
* The Python code stores graphs in a `networkx.DiGraph`: node attributes live
  in an insertion-ordered dict keyed by node id, and there is at most one
  edge per ordered pair of nodes; `add_edge` on an existing pair overwrites
  the edge's attributes.  We model this with insertion-ordered lists plus an
  update-or-append `addEdge`.
* Python node ids are the strings `"n0"`, `"n1"`, ... produced from the
  counter `node_id` by `f"n{node_id}"`.  That rendering is injective and the
  ids are otherwise opaque (they never appear inside labels and the scorer
  never inspects them), so we model a node id as the counter value itself,
  a `Nat`.
* Python floats are modelled as rationals; the literal `0.8` is the exact
  rational 4/5.
-/

/-- A labeled directed graph as stored by the Python code in a
`networkx.DiGraph`: nodes are `(id, label, type)` triples in insertion
order, edges are `(source, target, type)` triples in insertion order with
at most one edge per ordered `(source, target)` pair. -/
structure Graph where
  nodes : List (Nat × String × String) := []
  edges : List (Nat × Nat × String) := []
deriving Repr, DecidableEq

/-- `networkx`'s `DiGraph.add_node(nid, label=..., type=...)`: if the id is
already present its attributes are replaced, otherwise the node is appended. -/
def Graph.addNode (G : Graph) (nid : Nat) (label ty : String) : Graph :=
  if G.nodes.any (fun x => x.1 = nid) then
    { G with nodes := G.nodes.map (fun x => if x.1 = nid then (nid, label, ty) else x) }
  else
    { G with nodes := G.nodes ++ [(nid, label, ty)] }

/-- `networkx`'s `DiGraph.add_edge(u, v, type=...)`: if an edge between the
ordered pair `(u, v)` already exists its attributes are replaced (the old
edge kind is lost), otherwise the edge is appended.  Every `add_edge` call in
the repository uses endpoints already present in the node set, so the
`networkx` behaviour of silently adding missing endpoints never fires and is
not modelled. -/
def Graph.addEdge (G : Graph) (u v : Nat) (ty : String) : Graph :=
  if G.edges.any (fun e => e.1 = u ∧ e.2.1 = v) then
    { G with edges := G.edges.map (fun e => if e.1 = u ∧ e.2.1 = v then (u, v, ty) else e) }
  else
    { G with edges := G.edges ++ [(u, v, ty)] }

/-- The edges of `G` between the ordered pair `(u, v)`. -/
def Graph.edgesBetween (G : Graph) (u v : Nat) : List (Nat × Nat × String) :=
  G.edges.filter (fun e => e.1 = u ∧ e.2.1 = v)

/-! ## WL similarity scorer (`src/wl_kernel.py`) -/

/-- `G.nodes[n].get('type', 'unknown')`: the `type` attribute of node `n`,
with `networkx`'s missing-attribute default `'unknown'` used by the kernel. -/
def Graph.typeOf (G : Graph) (n : Nat) : String :=
  ((G.nodes.find? (fun x => x.1 = n)).map (fun x => x.2.2)).getD "unknown"

/-- Insert a string into an ascending list, keeping it ascending. -/
def insertSorted (x : String) : List String → List String
  | [] => [x]
  | y :: ys => if x ≤ y then x :: y :: ys else y :: insertSorted x ys

/-- Ascending sort of a list of strings; models Python's `list.sort()` on
strings (the exact order is irrelevant to every property proved below, only
that a fixed deterministic sort is applied). -/
def sortStrings : List String → List String
  | [] => []
  | x :: xs => insertSorted x (sortStrings xs)

/-- One synchronous WL relabeling round (the nested `relabel` in
`weisfeiler_lehman_kernel`): the new label of `n` is its current label,
`|`, then the sorted `-`-joined list of `"{neighbor label}_{edge type}"`
over the outgoing edges of `n`, or `LEAF` if there are none.  The labeling
is threaded functionally (`Nat → String`), which models the synchronous
two-phase update of the Python code (compute `new_labels` for every node
from the old labels, then overwrite). -/
def relabel (G : Graph) (lab : Nat → String) : Nat → String := fun n =>
  let neighborLabels :=
    (G.edges.filter (fun e => e.1 = n)).map (fun e => lab e.2.1 ++ "_" ++ e.2.2)
  let sorted := sortStrings neighborLabels
  lab n ++ "|" ++ (match sorted with | [] => "LEAF" | _ => String.intercalate "-" sorted)

/-- The WL labeling of `G` after `k` relabeling rounds; round 0 is the
initialization `wl_label = type` (with default `'unknown'`). -/
def wlLabelAt (G : Graph) : Nat → Nat → String
  | 0 => fun n => G.typeOf n
  | k + 1 => relabel G (wlLabelAt G k)

/-- The label histogram of `G` at round `k`, as the multiset (list) of
per-node labels; `Counter(...)` in the Python code.  Counts of a label are
recovered with `List.count`. -/
def histogram (G : Graph) (k : Nat) : List String :=
  G.nodes.map (fun x => wlLabelAt G k x.1)

/-- Weighted-Jaccard similarity of two label multisets: over the union of
the labels occurring in either, sum the min counts (intersection) and the
max counts (union); the similarity is intersection/union, or 0 when the
union is 0. -/
def jaccard (l1 l2 : List String) : ℚ :=
  let allLabels := (l1 ++ l2).dedup
  let inter := (allLabels.map (fun s => min (l1.count s) (l2.count s))).sum
  let uni := (allLabels.map (fun s => max (l1.count s) (l2.count s))).sum
  if 0 < uni then (inter : ℚ) / (uni : ℚ) else 0

/-- The raw per-round weights `[0.8**i for i in range(h+1)]`.  The parameter
`h` is an `Int` so that the behaviour on negative round counts is part of
the model; Python's `range(h+1)` is empty when `h + 1 ≤ 0`, which is what
`(h + 1).toNat` gives. -/
def wlWeights (h : Int) : List ℚ :=
  (List.range (h + 1).toNat).map (fun i => (0.8 : ℚ) ^ i)

/-- The normalized weights `[w / total_weight for w in weights]`. -/
def normalizedWlWeights (h : Int) : List ℚ :=
  (wlWeights h).map (fun w => w / (wlWeights h).sum)

/-- `weisfeiler_lehman_kernel(G1, G2, h)` from `src/wl_kernel.py`: the
weighted sum over rounds `0..h` of the weighted-Jaccard similarity of the
two graphs' round-`k` label histograms, with normalized geometrically
decaying weights. -/
def weisfeiler_lehman_kernel (G1 G2 : Graph) (h : Int) : ℚ :=
  ((List.range (h + 1).toNat).map
    (fun i => (normalizedWlWeights h).getD i 0 * jaccard (histogram G1 i) (histogram G2 i))).sum

/-! ## PDG builder (`src/pdg_generator.py`) -/

mutual

/-- The statement/expression tree produced by the external `pycparser`
collaborator, restricted to the node kinds and accessor fields the Builder
reads (`Constant.value`, `ID.name`, `BinaryOp.op/left/right`,
`UnaryOp.op/expr`, `Assignment.op/lvalue/rvalue`, `FuncCall.name/args`,
`Decl.name/init`, `If.cond/iftrue/iffalse`, `Return.expr`,
`Compound.block_items`).  `other` stands for any node kind the Builder has
no handler for; pycparser's `generic_visit` still recurses into its listed
children. -/
inductive CAst where
  | constant (value : String)
  | id (name : String)
  | binaryOp (op : String) (left right : CAst)
  | unaryOp (op : String) (expr : CAst)
  | assignment (op : String) (lvalue rvalue : CAst)
  | funcCall (fname : CAst) (args : CArgs)
  | decl (declName : String) (init : CAstOpt)
  | ifStmt (cond : CAst) (iftrue iffalse : CAstOpt)
  | ret (expr : CAstOpt)
  | compound (blockItems : CArgs)
  | other (children : CList)

/-- An optional child tree: Python `None` or a node (`Decl.init`,
`If.iftrue/iffalse`, `Return.expr`). -/
inductive CAstOpt where
  | none
  | some (node : CAst)

/-- An optional child list: Python `None` or the `exprs` of an `ExprList` /
the `block_items` of a `Compound`. -/
inductive CArgs where
  | none
  | some (l : CList)

/-- A list of child trees. -/
inductive CList where
  | nil
  | cons (head : CAst) (tail : CList)

end

mutual

/-- `Visitor.get_text`: purely textual rendering of an expression; creates
no graph nodes.  Unrecognized kinds render as `"?"`. -/
def get_text : CAst → String
  | .constant v => v
  | .id name => name
  | .binaryOp op l r => "(" ++ get_text l ++ " " ++ op ++ " " ++ get_text r ++ ")"
  | .assignment op lv rv => get_text lv ++ " " ++ op ++ " " ++ get_text rv
  | .unaryOp op e => op ++ get_text e
  | .funcCall f .none => "Call " ++ get_text f ++ "()"
  | .funcCall f (.some args) =>
      "Call " ++ get_text f ++ "(" ++ String.intercalate ", " (getTexts args) ++ ")"
  | .decl _ _ => "?"
  | .ifStmt _ _ _ => "?"
  | .ret _ => "?"
  | .compound _ => "?"
  | .other _ => "?"

/-- `[self.get_text(arg) for arg in node.args.exprs]`. -/
def getTexts : CList → List String
  | .nil => []
  | .cons x xs => get_text x :: getTexts xs

end

/-- The mutable state of one `PDGGenerator.generate` run: the outer
object's `pdg`, `node_id` and `last_assignment` together with the
`Visitor`'s own `current_node` cursor. -/
structure VState where
  pdg : Graph
  node_id : Nat
  last_assignment : List (String × Nat)
  current_node : Option Nat
deriving Repr, DecidableEq

/-- Python dict assignment `last_assignment[lval] = nid`: overwrite the
binding if the key is present, else append it. -/
def updateAssoc : List (String × Nat) → String → Nat → List (String × Nat)
  | [], k, v => [(k, v)]
  | (a, b) :: rest, k, v =>
      if a = k then (k, v) :: rest else (a, b) :: updateAssoc rest k v

/-- `Visitor.add_node`: create node `n{node_id}` with the given label and
type, add a `control` edge from the previous current node (if any), advance
the current node to the new node, increment the id counter, and return the
new node's id. -/
def addNode (s : VState) (label ty : String) : VState × Nat :=
  let nid := s.node_id
  let G1 := s.pdg.addNode nid label ty
  let G2 := match s.current_node with
    | some c => G1.addEdge c nid "control"
    | none => G1
  ({ pdg := G2, node_id := s.node_id + 1, last_assignment := s.last_assignment,
     current_node := some nid }, nid)

/-- `Visitor.visit_FuncCall`: one `func_call` node labeled with the callee
and the textual form of each argument; arguments are not visited, only
rendered. -/
def visit_FuncCall (s : VState) (fname : CAst) (args : CArgs) : VState × Nat :=
  let argTexts := match args with
    | .none => []
    | .some l => getTexts l
  addNode s ("Call " ++ get_text fname ++ "(" ++ String.intercalate ", " argTexts ++ ")")
    "func_call"

/-- `Visitor.visit_Decl`: always a `decl` node; an initializer additionally
produces an `assign` node (preceded by a `func_call` node plus a `data` edge
from the assign node to the call node when the initializer is a call).
`last_assignment` is not touched and the initializer is not visited. -/
def visit_Decl (s : VState) (declName : String) (init : CAstOpt) : VState :=
  let s1 := (addNode s ("Decl " ++ declName) "decl").1
  match init with
  | .none => s1
  | .some i =>
    match i with
    | .funcCall f args =>
        let s2 := (visit_FuncCall s1 f args).1
        let call_id := (visit_FuncCall s1 f args).2
        let s3 := (addNode s2 (declName ++ " = [call]") "assign").1
        let assign_id := (addNode s2 (declName ++ " = [call]") "assign").2
        { s3 with pdg := s3.pdg.addEdge assign_id call_id "data" }
    | _ =>
        (addNode s1 (declName ++ " = " ++ get_text i) "assign").1

/-- `Visitor.visit_ID`: if the name has a `last_assignment` binding, emit a
`use` node and a `data` edge from the bound defining node to it; otherwise
emit nothing. -/
def visit_ID (s : VState) (name : String) : VState :=
  match s.last_assignment.lookup name with
  | none => s
  | some defId =>
      let s1 := (addNode s ("Use " ++ name) "use").1
      let use_nid := (addNode s ("Use " ++ name) "use").2
      { s1 with pdg := s1.pdg.addEdge defId use_nid "data" }

mutual

/-- pycparser's `NodeVisitor.visit` dispatch: node kinds with a `visit_*`
handler go to that handler, all others to `generic_visit` (`genVisit`).  The
recursive handlers `visit_Assignment`, `visit_If`, `visit_Return` and
`visit_Compound` are inlined into their dispatch arms (marked below) so the
definition is structurally recursive; the non-recursive handlers
`visit_Decl`, `visit_ID` and `visit_FuncCall` are the standalone functions
above. -/
def visit : VState → CAst → VState
  | s, .constant _ => s
  | s, .id name => visit_ID s name
  | s, .binaryOp _ l r => visit (visit s l) r
  | s, .unaryOp _ e => visit s e
  | s, .assignment op lv rv =>
      -- `Visitor.visit_Assignment`: emit the `assign` node (with a
      -- `func_call` node and a `data` edge first when the right-hand side
      -- is a call), record the assignment in `last_assignment` under the
      -- textual left-hand side, and only then `generic_visit` the
      -- right-hand side.
      let lval := get_text lv
      let s2 := match rv with
        | .funcCall f args =>
            let sa := (visit_FuncCall s f args).1
            let call_id := (visit_FuncCall s f args).2
            let sb := (addNode sa (lval ++ " " ++ op ++ " [call]") "assign").1
            let nid := (addNode sa (lval ++ " " ++ op ++ " [call]") "assign").2
            let sc := { sb with pdg := sb.pdg.addEdge nid call_id "data" }
            { sc with last_assignment := updateAssoc sc.last_assignment lval nid }
        | _ =>
            let sa := (addNode s (lval ++ " " ++ op ++ " " ++ get_text rv) "assign").1
            let nid := (addNode s (lval ++ " " ++ op ++ " " ++ get_text rv) "assign").2
            { sa with last_assignment := updateAssoc sa.last_assignment lval nid }
      genVisit s2 rv
  | s, .funcCall f args => (visit_FuncCall s f args).1
  | s, .decl declName init => visit_Decl s declName init
  | s, .ifStmt cond iftrue iffalse =>
      -- `Visitor.visit_If`: emit the `if` node; for each present branch,
      -- save `current_node` (at that point the `if` node itself), point the
      -- current node at the `if` node, visit the branch, add a `control`
      -- edge from the `if` node to the branch-final current node, and
      -- restore the saved current node.  The `.none` fallback for the
      -- branch-final current node is unreachable: the branch visit starts
      -- from `current_node = some cond_nid` and no visit step ever clears
      -- the current node.
      let s1 := (addNode s ("If " ++ get_text cond ++ "?") "if").1
      let cond_nid := (addNode s ("If " ++ get_text cond ++ "?") "if").2
      let s2 := match iftrue with
        | .none => s1
        | .some t =>
            let old := s1.current_node
            let sb := visit { s1 with current_node := some cond_nid } t
            let endNid := match sb.current_node with
              | some c => c
              | none => cond_nid
            { sb with pdg := sb.pdg.addEdge cond_nid endNid "control", current_node := old }
      (match iffalse with
        | .none => s2
        | .some e =>
            let old := s2.current_node
            let sb := visit { s2 with current_node := some cond_nid } e
            let endNid := match sb.current_node with
              | some c => c
              | none => cond_nid
            { sb with pdg := sb.pdg.addEdge cond_nid endNid "control", current_node := old })
  | s, .ret expr =>
      -- `Visitor.visit_Return`: one `return` node labeled with the textual
      -- return expression (or bare `Return`), then `generic_visit` of the
      -- return expression when present; `generic_visit` visits only the
      -- expression's children, so a bare identifier expression triggers
      -- nothing further.
      let label := match expr with
        | .some e => "Return " ++ get_text e
        | .none => "Return"
      let s1 := (addNode s label "return").1
      (match expr with
        | .none => s1
        | .some e => genVisit s1 e)
  | s, .compound items =>
      -- `Visitor.visit_Compound`: visit each contained statement in order,
      -- emitting no node of its own; `node.block_items or []`.
      (match items with
        | .none => s
        | .some l => visitList s l)
  | s, .other cs => visitList s cs

/-- `self.visit(stmt)` over a list of trees, in order. -/
def visitList : VState → CList → VState
  | s, .nil => s
  | s, .cons x xs => visitList (visit s x) xs

/-- pycparser's `NodeVisitor.generic_visit(node)`: visit the node's children
in order (the node itself gets no graph node). -/
def genVisit : VState → CAst → VState
  | s, .constant _ => s
  | s, .id _ => s
  | s, .binaryOp _ l r => visit (visit s l) r
  | s, .unaryOp _ e => visit s e
  | s, .assignment _ lv rv => visit (visit s lv) rv
  | s, .funcCall f .none => visit s f
  | s, .funcCall f (.some args) => visitList (visit s f) args
  | s, .decl _ .none => s
  | s, .decl _ (.some i) => visit s i
  | s, .ifStmt c .none .none => visit s c
  | s, .ifStmt c (.some t) .none => visit (visit s c) t
  | s, .ifStmt c .none (.some e) => visit (visit s c) e
  | s, .ifStmt c (.some t) (.some e) => visit (visit (visit s c) t) e
  | s, .ret .none => s
  | s, .ret (.some e) => visit s e
  | s, .compound .none => s
  | s, .compound (.some items) => visitList s items
  | s, .other cs => visitList s cs

end

/-- The `PDGGenerator` object: its `__init__`-created fields `pdg`,
`node_id` and `last_assignment`, which persist across `generate` calls on
the same object. -/
structure PDGGenerator where
  pdg : Graph
  node_id : Nat
  last_assignment : List (String × Nat)
deriving Repr, DecidableEq

/-- `PDGGenerator.__init__`: empty graph, id counter 0, empty
last-assignment map, set once at object construction. -/
def PDGGenerator.init : PDGGenerator :=
  { pdg := {}, node_id := 0, last_assignment := [] }

/-- `PDGGenerator.generate(ast)`: run a fresh `Visitor` (fresh
`current_node = None`) over the tree, reading and updating the generator
object's own `pdg`, `node_id` and `last_assignment` (which `generate` does
not reset); returns the updated object and the returned `self.pdg`. -/
def PDGGenerator.generate (g : PDGGenerator) (ast : CAst) : PDGGenerator × Graph :=
  let s := visit { pdg := g.pdg, node_id := g.node_id,
                   last_assignment := g.last_assignment, current_node := none } ast
  ({ pdg := s.pdg, node_id := s.node_id, last_assignment := s.last_assignment }, s.pdg)

/-! ## Concrete trees and graphs used by witnesses and counterexamples -/

/-- A nonempty one-node graph (a single `decl` node). -/
def exampleGraph : Graph :=
  { nodes := [(0, "Decl x", "decl")], edges := [] }

/-- The spec's scenario tree: `int x = 5; return x;`. -/
def declReturnTree : CAst :=
  .compound (.some (.cons (.decl "x" (.some (.constant "5")))
    (.cons (.ret (.some (.id "x"))) .nil)))

/-- The self-referential assignment `x = x + 1` as a lone statement. -/
def selfAssignTree : CAst :=
  .assignment "=" (.id "x") (.binaryOp "+" (.id "x") (.constant "1"))

/-- A conditional between two declarations:
`int p; if (1) { int t; } int q;`. -/
def ifScenarioTree : CAst :=
  .compound (.some (.cons (.decl "p" .none)
    (.cons (.ifStmt (.constant "1") (.some (.decl "t" .none)) .none)
      (.cons (.decl "q" .none) .nil))))

/-- A conditional whose present true branch is a single unsupported
statement kind (no handler, no children), so visiting it emits no node. -/
def ifEmptyBranchTree : CAst :=
  .ifStmt (.constant "1") (.some (.other .nil)) .none

/-- The assignment `x = 1` as a lone statement. -/
def assignOneTree : CAst :=
  .assignment "=" (.id "x") (.constant "1")

mutual

/-- True when the tree contains no branching (`ifStmt`) construct. -/
def noIf : CAst → Bool
  | .constant _ => true
  | .id _ => true
  | .binaryOp _ l r => noIf l && noIf r
  | .unaryOp _ e => noIf e
  | .assignment _ lv rv => noIf lv && noIf rv
  | .funcCall f args => noIf f && noIfArgs args
  | .decl _ i => noIfOpt i
  | .ifStmt _ _ _ => false
  | .ret e => noIfOpt e
  | .compound items => noIfArgs items
  | .other cs => noIfList cs

/-- `noIf` on an optional child. -/
def noIfOpt : CAstOpt → Bool
  | .none => true
  | .some t => noIf t

/-- `noIf` on an optional child list. -/
def noIfArgs : CArgs → Bool
  | .none => true
  | .some l => noIfList l

/-- `noIf` on every member of a child list. -/
def noIfList : CList → Bool
  | .nil => true
  | .cons x xs => noIf x && noIfList xs

end

/-- The straight-line chain invariant maintained by a branch-free Builder
run: node ids are `0 .. node_id - 1` in creation order, the current node is
the most recently created one (absent before the first), every consecutive
pair of created nodes is linked by an edge of some kind, and every edge
kind is `control` or `data`. -/
def chainInv (s : VState) : Prop :=
  s.pdg.nodes.map (fun x => x.1) = List.range s.node_id ∧
  s.current_node = (if s.node_id = 0 then none else some (s.node_id - 1)) ∧
  (∀ i, i + 1 < s.node_id → ∃ ty, (i, i + 1, ty) ∈ s.pdg.edges) ∧
  (∀ e ∈ s.pdg.edges, e.2.2 = "control" ∨ e.2.2 = "data")

/-! ## Helper lemmas -/

theorem sum_map_mul_const (l : List ℚ) (c : ℚ) :
    (l.map (fun w => w * c)).sum = l.sum * c := by
  induction l with
  | nil => simp
  | cons a t ih => simp [ih, add_mul]

theorem sum_getD_range (l : List ℚ) :
    ((List.range l.length).map (fun i => l.getD i 0)).sum = l.sum := by
  induction l with
  | nil => simp
  | cons a t ih =>
      rw [List.length_cons, List.range_succ_eq_map, List.map_cons, List.map_map]
      simp only [List.getD_cons_zero, List.sum_cons]
      have hcomp : ((fun i => (a :: t).getD i 0) ∘ Nat.succ) = (fun i => t.getD i 0) := by
        funext i
        simp [List.getD_cons_succ]
      rw [hcomp, ih]

theorem wlWeights_pos (h : Int) : ∀ w ∈ wlWeights h, 0 < w := by
  intro w hw
  simp only [wlWeights, List.mem_map] at hw
  obtain ⟨i, _, rfl⟩ := hw
  positivity

theorem wlWeights_length (h : Int) : (wlWeights h).length = (h + 1).toNat := by
  simp [wlWeights]

theorem wlWeights_sum_pos (h : Int) (hh : 0 ≤ h) : 0 < (wlWeights h).sum := by
  apply List.sum_pos _ (wlWeights_pos h)
  intro hnil
  have hlen := wlWeights_length h
  rw [hnil] at hlen
  simp at hlen
  omega

theorem normalizedWlWeights_length (h : Int) :
    (normalizedWlWeights h).length = (h + 1).toNat := by
  simp [normalizedWlWeights, wlWeights]

theorem normalizedWlWeights_sum (h : Int) (hh : 0 ≤ h) :
    (normalizedWlWeights h).sum = 1 := by
  have hpos := wlWeights_sum_pos h hh
  unfold normalizedWlWeights
  simp only [div_eq_mul_inv]
  rw [sum_map_mul_const]
  exact mul_inv_cancel₀ hpos.ne'

theorem normalizedWlWeights_nonneg (h : Int) :
    ∀ x ∈ normalizedWlWeights h, 0 ≤ x := by
  intro x hx
  simp only [normalizedWlWeights, List.mem_map] at hx
  obtain ⟨w, hw, rfl⟩ := hx
  have hwpos := wlWeights_pos h w hw
  have hsum : 0 < (wlWeights h).sum :=
    List.sum_pos _ (wlWeights_pos h) (List.ne_nil_of_mem hw)
  exact div_nonneg hwpos.le hsum.le

theorem getD_nonneg_of_forall (l : List ℚ) (hl : ∀ x ∈ l, 0 ≤ x) (i : Nat) :
    0 ≤ l.getD i 0 := by
  rcases lt_or_ge i l.length with hi | hi
  · rw [List.getD_eq_getElem l 0 hi]
    exact hl _ (List.getElem_mem hi)
  · rw [List.getD_eq_default l 0 hi]

theorem jaccard_nonneg (l1 l2 : List String) : 0 ≤ jaccard l1 l2 := by
  simp only [jaccard]
  split
  · positivity
  · exact le_refl 0

theorem jaccard_le_one (l1 l2 : List String) : jaccard l1 l2 ≤ 1 := by
  simp only [jaccard]
  split
  · rename_i huni
    apply div_le_one_of_le₀
    · apply Nat.cast_le.mpr
      apply List.sum_le_sum
      intro s _
      exact min_le_max
    · positivity
  · norm_num

theorem jaccard_self (l : List String) (hl : l ≠ []) : jaccard l l = 1 := by
  obtain ⟨a, t, rfl⟩ := List.exists_cons_of_ne_nil hl
  simp only [jaccard, min_self, max_self]
  have hmem : a ∈ ((a :: t) ++ (a :: t)).dedup := by
    apply List.mem_dedup.mpr
    exact List.mem_append_left _ (List.mem_cons_self a t)
  have hcount : 0 < (a :: t).count a := by
    apply List.count_pos_iff.mpr
    exact List.mem_cons_self a t
  have huni : 0 < (((a :: t) ++ (a :: t)).dedup.map (fun s => (a :: t).count s)).sum := by
    calc 0 < (a :: t).count a := hcount
    _ ≤ _ := List.single_le_sum (fun x _ => Nat.zero_le x) _
          (List.mem_map_of_mem (fun s => (a :: t).count s) hmem)
  rw [if_pos huni]
  rw [div_self]
  exact Nat.cast_ne_zero.mpr huni.ne'

/-! ## Claims about the WL scorer -/

/-- C2 (counterexample): the claim says that for negative `rounds` the
Scorer signals an error and in particular never silently returns the score
0; but `weisfeiler_lehman_kernel` contains no validation at all and on the
concrete nonempty graph `exampleGraph` with `rounds = -1` it returns
normally with exactly 0. -/
theorem negative_rounds_silent_zero_counterexample :
    weisfeiler_lehman_kernel exampleGraph exampleGraph (-1) = 0 := by
  decide

/-- C2 (amended): for every pair of graphs and every negative `rounds`, the
Scorer returns normally with the score 0: `range(h)` and `range(h+1)` are
empty for negative `h`, so no weights are built, no rounds are compared,
and the initial accumulator 0.0 is returned; nothing raises. -/
theorem negative_rounds_returns_zero (G1 G2 : Graph) (h : Int) (hneg : h < 0) :
    weisfeiler_lehman_kernel G1 G2 h = 0 := by
  have htn : (h + 1).toNat = 0 := by omega
  simp [weisfeiler_lehman_kernel, htn]

/-- C2 (witness): the amended theorem applied at `rounds = -1` on the
concrete nonempty graph `exampleGraph`. -/
theorem negative_rounds_returns_zero_witness :
    (-1 : Int) < 0 ∧ weisfeiler_lehman_kernel exampleGraph exampleGraph (-1) = 0 :=
  ⟨by decide, negative_rounds_returns_zero exampleGraph exampleGraph (-1) (by decide)⟩

/-- C5: `similarity(G, G, rounds) = 1` for every nonempty graph `G` and
every `rounds ≥ 0`: at every round the two histograms are the same
expression, so the round's weighted-Jaccard similarity is 1, and the
normalized weights sum exactly to 1. -/
theorem similarity_self_eq_one (G : Graph) (h : Int) (hh : 0 ≤ h)
    (hG : G.nodes ≠ []) : weisfeiler_lehman_kernel G G h = 1 := by
  unfold weisfeiler_lehman_kernel
  have hhist : ∀ i, histogram G i ≠ [] := by
    intro i
    simp [histogram, hG]
  have h1 : ∀ i ∈ List.range (h + 1).toNat,
      (normalizedWlWeights h).getD i 0 * jaccard (histogram G i) (histogram G i)
        = (normalizedWlWeights h).getD i 0 := by
    intro i _
    rw [jaccard_self _ (hhist i), mul_one]
  rw [List.map_congr_left h1, ← normalizedWlWeights_length h, sum_getD_range,
    normalizedWlWeights_sum h hh]

/-- C5 (witness): the identity theorem applied to the concrete nonempty
graph `exampleGraph` with `rounds = 0`. -/
theorem similarity_self_eq_one_witness :
    (0 : Int) ≤ 0 ∧ exampleGraph.nodes ≠ [] ∧
      weisfeiler_lehman_kernel exampleGraph exampleGraph 0 = 1 :=
  ⟨by decide, by decide, similarity_self_eq_one exampleGraph 0 (by decide) (by decide)⟩

/-- C8: for every two graphs and every `rounds ≥ 0` the Scorer's result
lies in [0, 1]: each round's weighted-Jaccard value is in [0, 1] (0 is
taken when the union is 0), the normalized weights are nonnegative and sum
to 1, so the convex combination stays in [0, 1]. -/
theorem similarity_range (G1 G2 : Graph) (h : Int) (hh : 0 ≤ h) :
    0 ≤ weisfeiler_lehman_kernel G1 G2 h ∧ weisfeiler_lehman_kernel G1 G2 h ≤ 1 := by
  constructor
  · unfold weisfeiler_lehman_kernel
    apply List.sum_nonneg
    intro x hx
    simp only [List.mem_map] at hx
    obtain ⟨i, _, rfl⟩ := hx
    exact mul_nonneg (getD_nonneg_of_forall _ (normalizedWlWeights_nonneg h) i)
      (jaccard_nonneg _ _)
  · unfold weisfeiler_lehman_kernel
    have hle : ((List.range (h + 1).toNat).map
        (fun i => (normalizedWlWeights h).getD i 0 *
          jaccard (histogram G1 i) (histogram G2 i))).sum
        ≤ ((List.range (h + 1).toNat).map
          (fun i => (normalizedWlWeights h).getD i 0)).sum := by
      apply List.sum_le_sum
      intro i _
      exact mul_le_of_le_one_right
        (getD_nonneg_of_forall _ (normalizedWlWeights_nonneg h) i) (jaccard_le_one _ _)
    calc ((List.range (h + 1).toNat).map
        (fun i => (normalizedWlWeights h).getD i 0 *
          jaccard (histogram G1 i) (histogram G2 i))).sum
        ≤ ((List.range (h + 1).toNat).map
          (fun i => (normalizedWlWeights h).getD i 0)).sum := hle
      _ = 1 := by
          rw [← normalizedWlWeights_length h, sum_getD_range,
            normalizedWlWeights_sum h hh]

/-- C8 (witness): the range theorem applied to two concrete graphs (one of
them empty) with `rounds = 0`. -/
theorem similarity_range_witness :
    (0 : Int) ≤ 0 ∧
      (0 ≤ weisfeiler_lehman_kernel exampleGraph { nodes := [], edges := [] } 0 ∧
        weisfeiler_lehman_kernel exampleGraph { nodes := [], edges := [] } 0 ≤ 1) :=
  ⟨by decide, similarity_range exampleGraph { nodes := [], edges := [] } 0 (by decide)⟩

/-- C9: for every `rounds ≥ 1` the normalized per-round weight list has
`rounds + 1` entries, each entry is `0.8 ^ i` divided by the total raw
weight, the entries sum exactly to 1 as rationals, and they strictly
decrease from round to round. -/
theorem normalized_weights_decay (h : Int) (hh : 1 ≤ h) :
    (normalizedWlWeights h).length = (h + 1).toNat ∧
    (normalizedWlWeights h).sum = 1 ∧
    (∀ i, i < (normalizedWlWeights h).length →
      (normalizedWlWeights h).getD i 0 = (0.8 : ℚ) ^ i / (wlWeights h).sum) ∧
    (∀ i, i + 1 < (normalizedWlWeights h).length →
      (normalizedWlWeights h).getD (i + 1) 0 < (normalizedWlWeights h).getD i 0) := by
  have hh0 : (0 : Int) ≤ h := by omega
  have hpos := wlWeights_sum_pos h hh0
  have hget : ∀ i, i < (normalizedWlWeights h).length →
      (normalizedWlWeights h).getD i 0 = (0.8 : ℚ) ^ i / (wlWeights h).sum := by
    intro i hi
    rw [List.getD_eq_getElem _ _ hi]
    simp [normalizedWlWeights, wlWeights]
  refine ⟨normalizedWlWeights_length h, normalizedWlWeights_sum h hh0, hget, ?_⟩
  intro i hi1
  have hi : i < (normalizedWlWeights h).length := by omega
  rw [hget i hi, hget (i + 1) hi1]
  apply div_lt_div_of_pos_right _ hpos
  have h45 : (0.8 : ℚ) ^ (i + 1) = (0.8 : ℚ) ^ i * 0.8 := by ring
  nlinarith [pow_pos (show (0 : ℚ) < 0.8 by norm_num) i]

/-- C9 (witness): the weight theorem applied at `rounds = 1`. -/
theorem normalized_weights_decay_witness :
    (1 : Int) ≤ 1 ∧
    ((normalizedWlWeights 1).length = ((1 : Int) + 1).toNat ∧
    (normalizedWlWeights 1).sum = 1 ∧
    (∀ i, i < (normalizedWlWeights 1).length →
      (normalizedWlWeights 1).getD i 0 = (0.8 : ℚ) ^ i / (wlWeights 1).sum) ∧
    (∀ i, i + 1 < (normalizedWlWeights 1).length →
      (normalizedWlWeights 1).getD (i + 1) 0 < (normalizedWlWeights 1).getD i 0)) :=
  ⟨by decide, normalized_weights_decay 1 (by decide)⟩

/-! ## Builder graph-edge lemmas -/

theorem mem_addEdge_self (G : Graph) (u v : Nat) (ty : String) :
    (u, v, ty) ∈ (G.addEdge u v ty).edges := by
  unfold Graph.addEdge
  split
  · rename_i hany
    rw [List.any_eq_true] at hany
    obtain ⟨e, he, hpe⟩ := hany
    simp only [decide_eq_true_eq] at hpe
    have himg := List.mem_map_of_mem
      (fun e => if e.1 = u ∧ e.2.1 = v then (u, v, ty) else e) he
    simp only [hpe.1, hpe.2, and_self, ite_true] at himg
    simpa using himg
  · simp

theorem addEdge_pair_mem (G : Graph) (u v a b : Nat) (ty : String)
    (hab : ∃ ty0, (a, b, ty0) ∈ G.edges) :
    ∃ ty1, (a, b, ty1) ∈ (G.addEdge u v ty).edges := by
  obtain ⟨ty0, h0⟩ := hab
  unfold Graph.addEdge
  split
  · by_cases hp : a = u ∧ b = v
    · refine ⟨ty, ?_⟩
      have himg := List.mem_map_of_mem
        (fun e => if e.1 = u ∧ e.2.1 = v then (u, v, ty) else e) h0
      simp only [hp.1, hp.2, and_self, ite_true] at himg
      simpa [hp.1, hp.2] using himg
    · refine ⟨ty0, ?_⟩
      have himg := List.mem_map_of_mem
        (fun e => if e.1 = u ∧ e.2.1 = v then (u, v, ty) else e) h0
      simp only at himg
      rw [if_neg (by simpa using hp)] at himg
      simpa using himg
  · exact ⟨ty0, List.mem_append_left _ h0⟩

theorem addEdge_kinds (G : Graph) (u v : Nat) (ty : String)
    (hty : ty = "control" ∨ ty = "data")
    (hG : ∀ e ∈ G.edges, e.2.2 = "control" ∨ e.2.2 = "data") :
    ∀ e ∈ (G.addEdge u v ty).edges, e.2.2 = "control" ∨ e.2.2 = "data" := by
  intro e he
  unfold Graph.addEdge at he
  split at he
  · simp only [List.mem_map] at he
    obtain ⟨e0, he0, rfl⟩ := he
    split
    · exact hty
    · exact hG e0 he0
  · rcases List.mem_append.mp he with h1 | h2
    · exact hG e h1
    · simp at h2
      subst h2
      exact hty

theorem filter_update_eq (u v : Nat) (ty : String) :
    ∀ l : List (Nat × Nat × String),
      (l.filter (fun e => e.1 = u ∧ e.2.1 = v)).length ≤ 1 →
      l.any (fun e => e.1 = u ∧ e.2.1 = v) = true →
      (l.map (fun e => if e.1 = u ∧ e.2.1 = v then (u, v, ty) else e)).filter
        (fun e => e.1 = u ∧ e.2.1 = v) = [(u, v, ty)] := by
  intro l
  induction l with
  | nil => simp
  | cons a t ih =>
      intro hlen hany
      by_cases ha : a.1 = u ∧ a.2.1 = v
      · have htail : t.filter (fun e => decide (e.1 = u ∧ e.2.1 = v)) = [] := by
          rw [List.filter_cons_of_pos (by simpa using ha)] at hlen
          simp only [List.length_cons] at hlen
          have hzero : (t.filter (fun e => decide (e.1 = u ∧ e.2.1 = v))).length = 0 := by
            omega
          exact List.length_eq_zero.mp hzero
        have hmapt : t.map (fun e => if e.1 = u ∧ e.2.1 = v then (u, v, ty) else e) = t := by
          have hnone : ∀ e ∈ t, ¬(e.1 = u ∧ e.2.1 = v) := by
            intro e het
            have hq := List.filter_eq_nil_iff.mp htail e het
            simpa using hq
          calc t.map (fun e => if e.1 = u ∧ e.2.1 = v then (u, v, ty) else e)
              = t.map (fun e => e) := by
                apply List.map_congr_left
                intro e het
                rw [if_neg (hnone e het)]
            _ = t := List.map_id _
        rw [List.map_cons, hmapt, if_pos ha, List.filter_cons_of_pos (by simp), htail]
      · rw [List.map_cons, if_neg ha, List.filter_cons_of_neg (by simpa using ha)]
        apply ih
        · rwa [List.filter_cons_of_neg (by simpa using ha)] at hlen
        · rcases List.any_eq_true.mp hany with ⟨e, he, hpe⟩
          simp only [decide_eq_true_eq] at hpe
          rcases List.mem_cons.mp he with rfl | het
          · exact absurd hpe ha
          · exact List.any_eq_true.mpr ⟨e, het, by simpa using hpe⟩

/-! ## Claims about the PDG builder (except the chain claim) -/

/-- C1 (counterexample): the claim says the scenario `int x = 5; return x;`
yields a `use` node "Use x" and a `data` edge from the assign node to it;
but the Builder run on that scenario produces no `use` node and no `data`
edge at all (only the 3 statement nodes). -/
theorem decl_return_scenario_counterexample :
    ((PDGGenerator.init.generate declReturnTree).2.nodes.filter
      (fun x => x.2.2 = "use")) = [] ∧
    ((PDGGenerator.init.generate declReturnTree).2.edges.filter
      (fun e => e.2.2 = "data")) = [] ∧
    (PDGGenerator.init.generate declReturnTree).2.nodes.length = 3 := by
  decide

/-- C1 (amended): `visit_Decl` never records anything in the
last-assignment map (only assignment statements do), and the recursive
visitation of a return expression visits only the expression's children, so
a bare identifier return triggers no use detection; the scenario
`int x = 5; return x;` therefore emits exactly the 3 nodes `decl` "Decl x",
`assign` "x = 5", `return` "Return x" chained by 2 control edges, with no
`use` node and no `data` edge. -/
theorem decl_records_nothing_bare_return_scenario :
    (∀ (s : VState) (n : String) (i : CAstOpt),
        (visit_Decl s n i).last_assignment = s.last_assignment) ∧
    (PDGGenerator.init.generate declReturnTree).2 =
      { nodes := [(0, "Decl x", "decl"), (1, "x = 5", "assign"),
                  (2, "Return x", "return")],
        edges := [(0, 1, "control"), (1, 2, "control")] } := by
  constructor
  · intro s n i
    cases i with
    | none => rfl
    | some node => cases node <;> rfl
  · decide

/-- C4 (counterexample): the claim says a `control` and a `data` edge
between the same ordered pair coexist after a Builder run; but in the
`x = x + 1` run — where the control edge `(0, 1)` is created by `add_node`
and a `data` edge is then added for the same pair — the final graph holds
only the `data` edge: the control edge was overwritten. -/
theorem same_pair_edges_no_coexist_counterexample :
    (PDGGenerator.init.generate selfAssignTree).2 =
      { nodes := [(0, "x = (x + 1)", "assign"), (1, "Use x", "use")],
        edges := [(0, 1, "data")] } ∧
    (0, 1, "control") ∉ (PDGGenerator.init.generate selfAssignTree).2.edges := by
  decide

/-- C4 (amended): adding an edge between an ordered pair of nodes replaces
any existing edge between that pair, overwriting its kind (`networkx`
`add_edge` updates the attributes of an existing edge): if the graph holds
at most one edge between `(u, v)`, then after `addEdge u v ty` the edges
between `(u, v)` are exactly the single edge of kind `ty` — a `control` and
a `data` edge between the same ordered pair never coexist. -/
theorem addEdge_replaces_same_pair (G : Graph) (u v : Nat) (ty : String)
    (h1 : (G.edgesBetween u v).length ≤ 1) :
    (G.addEdge u v ty).edgesBetween u v = [(u, v, ty)] := by
  unfold Graph.edgesBetween at h1
  unfold Graph.addEdge Graph.edgesBetween
  split
  · rename_i hany
    exact filter_update_eq u v ty G.edges h1 hany
  · rename_i hany
    have hnil : G.edges.filter (fun e => decide (e.1 = u ∧ e.2.1 = v)) = [] := by
      apply List.filter_eq_nil_iff.mpr
      intro e he hcontra
      exact hany (List.any_eq_true.mpr ⟨e, he, hcontra⟩)
    simp only [List.filter_append, hnil, List.nil_append]
    simp

/-- C4 (witness): the overwrite theorem applied to a concrete two-node
graph holding one `control` edge, to which a `data` edge is added between
the same pair. -/
theorem addEdge_replaces_same_pair_witness :
    ((Graph.mk [(0, "Decl x", "decl"), (1, "Use x", "use")]
        [(0, 1, "control")]).edgesBetween 0 1).length ≤ 1 ∧
    ((Graph.mk [(0, "Decl x", "decl"), (1, "Use x", "use")]
        [(0, 1, "control")]).addEdge 0 1 "data").edgesBetween 0 1 = [(0, 1, "data")] :=
  ⟨by decide, addEdge_replaces_same_pair _ 0 1 "data" (by decide)⟩

/-- C6 (counterexample): the claim says a statement following the whole
conditional receives its control edge from the pre-conditional current
node; but in `int p; if (1) { int t; } int q;` the node "Decl q" (node 3)
receives its control edge from the `if` node (node 1), not from the
pre-conditional node "Decl p" (node 0). -/
theorem post_if_control_edge_counterexample :
    (1, 3, "control") ∈ (PDGGenerator.init.generate ifScenarioTree).2.edges ∧
    (0, 3, "control") ∉ (PDGGenerator.init.generate ifScenarioTree).2.edges := by
  decide

/-- C6 (amended): the two branches do not chain off each other (each is
entered with the current node set to the `if` node) and one control edge
runs from the `if` node to the last node of each present branch, but the
restore on exit re-establishes the `if` node itself as current (the save
happens after the `if` node is created), so a statement following the
whole conditional receives its control edge from the `if` node — never from
a node inside either branch, and not from the pre-conditional current
node. -/
theorem if_restores_current_to_if_node :
    (∀ (s : VState) (cond : CAst) (t e : CAstOpt),
        (visit s (.ifStmt cond t e)).current_node = some s.node_id) ∧
    (PDGGenerator.init.generate ifScenarioTree).2 =
      { nodes := [(0, "Decl p", "decl"), (1, "If 1?", "if"),
                  (2, "Decl t", "decl"), (3, "Decl q", "decl")],
        edges := [(0, 1, "control"), (1, 2, "control"), (1, 3, "control")] } := by
  constructor
  · intro s cond t e
    cases t <;> cases e <;> rfl
  · decide

/-- C7 (counterexample): the claim says a second `generate` on the same
generator object starts from an empty graph, a zero id counter and an empty
last-assignment map; but after running `x = 1;`, a second `generate` on the
same object of the bare identifier `x` still holds the first run's
map entry `x ↦ 0` and its node 0, and even adds a `use` node with a `data`
edge reaching back into the first run's graph. -/
theorem generate_reuse_counterexample :
    ((PDGGenerator.init.generate assignOneTree).1.generate (.id "x")).1.last_assignment
      = [("x", 0)] ∧
    (0, "x = 1", "assign") ∈
      ((PDGGenerator.init.generate assignOneTree).1.generate (.id "x")).2.nodes := by
  decide

/-- C7 (amended): Builder state is fresh only at generator construction:
`PDGGenerator()` starts with an empty graph, id counter 0 and empty
last-assignment map, and a fresh generator run on a bare identifier emits
nothing; but `generate` itself resets nothing except the visitor's
`current_node`, so a second `generate` on the same object extends the first
run's graph, counter and map. -/
theorem state_fresh_only_at_construction :
    PDGGenerator.init =
      { pdg := { nodes := [], edges := [] }, node_id := 0, last_assignment := [] } ∧
    (PDGGenerator.init.generate (.id "x")).2 = { nodes := [], edges := [] } ∧
    ((PDGGenerator.init.generate assignOneTree).1.generate (.id "x")).2 =
      { nodes := [(0, "x = 1", "assign"), (1, "Use x", "use")],
        edges := [(0, 1, "data")] } :=
  ⟨rfl, by decide, by decide⟩

/-- C10: a present conditional branch whose visitation emits no graph node
(here: a single unsupported statement kind) leaves the current node at the
`if` node, so the branch-exit edge becomes a control self-loop from the
`if` node to itself — universally over the entry state, and concretely for
the one-statement program `if (1) { <unsupported>; }`. -/
theorem empty_branch_self_loop :
    (∀ (s : VState) (cond : CAst),
        (s.node_id, s.node_id, "control") ∈
          (visit s (.ifStmt cond (.some (.other .nil)) .none)).pdg.edges) ∧
    (PDGGenerator.init.generate ifEmptyBranchTree).2 =
      { nodes := [(0, "If 1?", "if")], edges := [(0, 0, "control")] } := by
  constructor
  · intro s cond
    exact mem_addEdge_self _ _ _ _
  · decide

/-! ## The straight-line chain invariant (claim C3) -/


theorem addEdge_nodes (G : Graph) (u v : Nat) (ty : String) :
    (G.addEdge u v ty).nodes = G.nodes := by
  unfold Graph.addEdge
  split <;> rfl

theorem chainInv_addNode (s : VState) (label ty : String)
    (hs : chainInv s) : chainInv (addNode s label ty).1 := by
  obtain ⟨hnodes, hcur, hedges, hkinds⟩ := hs
  have hnotin : (s.pdg.nodes.any (fun x => x.1 = s.node_id)) = false := by
    rw [List.any_eq_false]
    intro x hx
    have hmem : x.1 ∈ s.pdg.nodes.map (fun x => x.1) := List.mem_map_of_mem _ hx
    rw [hnodes, List.mem_range] at hmem
    simp only [decide_eq_true_eq]
    omega
  have hG1nodes : (s.pdg.addNode s.node_id label ty).nodes
      = s.pdg.nodes ++ [(s.node_id, label, ty)] := by
    unfold Graph.addNode
    rw [if_neg (by simp [hnotin])]
  have hG1edges : (s.pdg.addNode s.node_id label ty).edges = s.pdg.edges := by
    unfold Graph.addNode
    rw [if_neg (by simp [hnotin])]
  unfold addNode
  dsimp only
  rw [hcur]
  by_cases h0 : s.node_id = 0
  · rw [if_pos h0]
    refine ⟨?_, ?_, ?_, ?_⟩
    · dsimp only
      simp only [hG1nodes, List.map_append, hnodes, List.range_succ]
      rfl
    · simp
    · intro i hi
      dsimp only at hi
      dsimp only
      rw [hG1edges]
      exact hedges i (by omega)
    · intro e he
      dsimp only at he
      rw [hG1edges] at he
      exact hkinds e he
  · rw [if_neg h0]
    refine ⟨?_, ?_, ?_, ?_⟩
    · dsimp only
      rw [addEdge_nodes]
      simp only [hG1nodes, List.map_append, hnodes, List.range_succ]
      rfl
    · simp
    · intro i hi
      dsimp only at hi
      dsimp only
      rcases Nat.lt_or_ge (i + 1) s.node_id with hlt | hge
      · apply addEdge_pair_mem
        rw [hG1edges]
        exact hedges i hlt
      · have hni : s.node_id = i + 1 := by omega
        rw [hni]
        simp only [Nat.add_sub_cancel]
        exact ⟨"control", mem_addEdge_self _ _ _ _⟩
    · intro e he
      dsimp only at he
      refine addEdge_kinds _ _ _ _ (Or.inl rfl) ?_ e he
      intro e2 he2
      rw [hG1edges] at he2
      exact hkinds e2 he2

theorem chainInv_set_pdg_addEdge (s : VState) (u v : Nat) (ty : String)
    (hty : ty = "control" ∨ ty = "data") (hs : chainInv s) :
    chainInv { s with pdg := s.pdg.addEdge u v ty } := by
  obtain ⟨hnodes, hcur, hedges, hkinds⟩ := hs
  refine ⟨?_, hcur, ?_, ?_⟩
  · show (s.pdg.addEdge u v ty).nodes.map (fun x => x.1) = _
    rw [addEdge_nodes]
    exact hnodes
  · intro i hi
    exact addEdge_pair_mem _ _ _ _ _ _ (hedges i hi)
  · exact addEdge_kinds _ _ _ _ hty hkinds

theorem chainInv_set_last (s : VState) (m : List (String × Nat)) (hs : chainInv s) :
    chainInv { s with last_assignment := m } := hs

theorem chainInv_visit_FuncCall (s : VState) (f : CAst) (args : CArgs)
    (hs : chainInv s) : chainInv (visit_FuncCall s f args).1 := by
  unfold visit_FuncCall
  exact chainInv_addNode _ _ _ hs

theorem chainInv_visit_Decl (s : VState) (n : String) (i : CAstOpt)
    (hs : chainInv s) : chainInv (visit_Decl s n i) := by
  unfold visit_Decl
  cases i with
  | none => exact chainInv_addNode _ _ _ hs
  | some node =>
      cases node with
      | funcCall f args =>
          dsimp only
          exact chainInv_set_pdg_addEdge _ _ _ _ (Or.inr rfl)
            (chainInv_addNode _ _ _ (chainInv_visit_FuncCall _ _ _
              (chainInv_addNode _ _ _ hs)))
      | constant v => exact chainInv_addNode _ _ _ (chainInv_addNode _ _ _ hs)
      | id nm => exact chainInv_addNode _ _ _ (chainInv_addNode _ _ _ hs)
      | binaryOp op l r => exact chainInv_addNode _ _ _ (chainInv_addNode _ _ _ hs)
      | unaryOp op e => exact chainInv_addNode _ _ _ (chainInv_addNode _ _ _ hs)
      | assignment op lv rv => exact chainInv_addNode _ _ _ (chainInv_addNode _ _ _ hs)
      | decl dn di => exact chainInv_addNode _ _ _ (chainInv_addNode _ _ _ hs)
      | ifStmt c t e => exact chainInv_addNode _ _ _ (chainInv_addNode _ _ _ hs)
      | ret e => exact chainInv_addNode _ _ _ (chainInv_addNode _ _ _ hs)
      | compound items => exact chainInv_addNode _ _ _ (chainInv_addNode _ _ _ hs)
      | other cs => exact chainInv_addNode _ _ _ (chainInv_addNode _ _ _ hs)

theorem chainInv_visit_ID (s : VState) (name : String)
    (hs : chainInv s) : chainInv (visit_ID s name) := by
  unfold visit_ID
  cases s.last_assignment.lookup name with
  | none => exact hs
  | some defId =>
      dsimp only
      exact chainInv_set_pdg_addEdge _ _ _ _ (Or.inr rfl) (chainInv_addNode _ _ _ hs)


theorem chain_aux : ∀ n : Nat,
    (∀ t : CAst, sizeOf t ≤ n →
      (∀ s, noIf t = true → chainInv s → chainInv (visit s t)) ∧
      (∀ s, noIf t = true → chainInv s → chainInv (genVisit s t))) ∧
    (∀ l : CList, sizeOf l ≤ n →
      ∀ s, noIfList l = true → chainInv s → chainInv (visitList s l)) := by
  intro n
  induction n using Nat.strong_induction_on with
  | _ n IH =>
    constructor
    · intro t ht
      cases t with
      | constant v =>
          constructor
          · intro s hno hs
            simpa only [visit] using hs
          · intro s hno hs
            simpa only [genVisit] using hs
      | id name =>
          constructor
          · intro s hno hs
            simp only [visit]
            exact chainInv_visit_ID _ _ hs
          · intro s hno hs
            simpa only [genVisit] using hs
      | binaryOp op l r =>
          have hts : sizeOf l < n ∧ sizeOf r < n := by
            simp only [CAst.binaryOp.sizeOf_spec] at ht
            omega
          have IHl := (IH (sizeOf l) hts.1).1 l (le_refl _)
          have IHr := (IH (sizeOf r) hts.2).1 r (le_refl _)
          have hsplit : ∀ (hno : noIf (CAst.binaryOp op l r) = true),
              noIf l = true ∧ noIf r = true := by
            intro hno
            simpa only [noIf, Bool.and_eq_true] using hno
          constructor
          · intro s hno hs
            simp only [visit]
            exact IHr.1 _ (hsplit hno).2 (IHl.1 _ (hsplit hno).1 hs)
          · intro s hno hs
            simp only [genVisit]
            exact IHr.1 _ (hsplit hno).2 (IHl.1 _ (hsplit hno).1 hs)
      | unaryOp op e =>
          have hte : sizeOf e < n := by
            simp only [CAst.unaryOp.sizeOf_spec] at ht
            omega
          have IHe := (IH (sizeOf e) hte).1 e (le_refl _)
          have hsplit : ∀ (hno : noIf (CAst.unaryOp op e) = true), noIf e = true := by
            intro hno
            simpa only [noIf] using hno
          constructor
          · intro s hno hs
            simp only [visit]
            exact IHe.1 _ (hsplit hno) hs
          · intro s hno hs
            simp only [genVisit]
            exact IHe.1 _ (hsplit hno) hs
      | ifStmt c t1 e1 =>
          constructor
          · intro s hno hs
            simp only [noIf] at hno
            exact Bool.noConfusion hno
          · intro s hno hs
            simp only [noIf] at hno
            exact Bool.noConfusion hno
      | funcCall f args =>
          have htf : sizeOf f < n := by
            simp only [CAst.funcCall.sizeOf_spec] at ht
            omega
          have IHf := (IH (sizeOf f) htf).1 f (le_refl _)
          constructor
          · intro s hno hs
            simp only [visit]
            exact chainInv_visit_FuncCall _ _ _ hs
          · intro s hno hs
            have hnof : noIf f = true := by
              simp only [noIf, Bool.and_eq_true] at hno
              exact hno.1
            cases args with
            | none =>
                simp only [genVisit]
                exact IHf.1 _ hnof hs
            | some l =>
                have htl : sizeOf l < n := by
                  simp only [CAst.funcCall.sizeOf_spec, CArgs.some.sizeOf_spec] at ht
                  omega
                have hnol : noIfList l = true := by
                  simp only [noIf, noIfArgs, Bool.and_eq_true] at hno
                  exact hno.2
                simp only [genVisit]
                exact (IH (sizeOf l) htl).2 l (le_refl _) _ hnol (IHf.1 _ hnof hs)
      | assignment op lv rv =>
          have hts : sizeOf lv < n ∧ sizeOf rv < n := by
            simp only [CAst.assignment.sizeOf_spec] at ht
            omega
          have IHlv := (IH (sizeOf lv) hts.1).1 lv (le_refl _)
          have IHrv := (IH (sizeOf rv) hts.2).1 rv (le_refl _)
          have hsplit : ∀ (hno : noIf (CAst.assignment op lv rv) = true),
              noIf lv = true ∧ noIf rv = true := by
            intro hno
            simpa only [noIf, Bool.and_eq_true] using hno
          constructor
          · intro s hno hs
            cases rv with
            | funcCall f args =>
                simp only [visit]
                exact IHrv.2 _ (hsplit hno).2
                  (chainInv_set_last _ _ (chainInv_set_pdg_addEdge _ _ _ _ (Or.inr rfl)
                    (chainInv_addNode _ _ _ (chainInv_visit_FuncCall _ _ _ hs))))
            | constant v =>
                simp only [visit]
                exact IHrv.2 _ (hsplit hno).2
                  (chainInv_set_last _ _ (chainInv_addNode _ _ _ hs))
            | id nm =>
                simp only [visit]
                exact IHrv.2 _ (hsplit hno).2
                  (chainInv_set_last _ _ (chainInv_addNode _ _ _ hs))
            | binaryOp op2 l2 r2 =>
                simp only [visit]
                exact IHrv.2 _ (hsplit hno).2
                  (chainInv_set_last _ _ (chainInv_addNode _ _ _ hs))
            | unaryOp op2 e2 =>
                simp only [visit]
                exact IHrv.2 _ (hsplit hno).2
                  (chainInv_set_last _ _ (chainInv_addNode _ _ _ hs))
            | assignment op2 lv2 rv2 =>
                simp only [visit]
                exact IHrv.2 _ (hsplit hno).2
                  (chainInv_set_last _ _ (chainInv_addNode _ _ _ hs))
            | decl dn2 di2 =>
                simp only [visit]
                exact IHrv.2 _ (hsplit hno).2
                  (chainInv_set_last _ _ (chainInv_addNode _ _ _ hs))
            | ifStmt c2 t2 e2 =>
                simp only [visit]
                exact IHrv.2 _ (hsplit hno).2
                  (chainInv_set_last _ _ (chainInv_addNode _ _ _ hs))
            | ret e2 =>
                simp only [visit]
                exact IHrv.2 _ (hsplit hno).2
                  (chainInv_set_last _ _ (chainInv_addNode _ _ _ hs))
            | compound items2 =>
                simp only [visit]
                exact IHrv.2 _ (hsplit hno).2
                  (chainInv_set_last _ _ (chainInv_addNode _ _ _ hs))
            | other cs2 =>
                simp only [visit]
                exact IHrv.2 _ (hsplit hno).2
                  (chainInv_set_last _ _ (chainInv_addNode _ _ _ hs))
          · intro s hno hs
            simp only [genVisit]
            exact IHrv.1 _ (hsplit hno).2 (IHlv.1 _ (hsplit hno).1 hs)
      | decl dn di =>
          constructor
          · intro s hno hs
            simp only [visit]
            exact chainInv_visit_Decl _ _ _ hs
          · intro s hno hs
            cases di with
            | none =>
                simpa only [genVisit] using hs
            | some i =>
                have hti : sizeOf i < n := by
                  simp only [CAst.decl.sizeOf_spec, CAstOpt.some.sizeOf_spec] at ht
                  omega
                have hnoi : noIf i = true := by
                  simpa only [noIf, noIfOpt] using hno
                simp only [genVisit]
                exact ((IH (sizeOf i) hti).1 i (le_refl _)).1 _ hnoi hs
      | ret e =>
          constructor
          · intro s hno hs
            cases e with
            | none =>
                simp only [visit]
                exact chainInv_addNode _ _ _ hs
            | some e1 =>
                have hte : sizeOf e1 < n := by
                  simp only [CAst.ret.sizeOf_spec, CAstOpt.some.sizeOf_spec] at ht
                  omega
                have hnoe : noIf e1 = true := by
                  simpa only [noIf, noIfOpt] using hno
                simp only [visit]
                exact ((IH (sizeOf e1) hte).1 e1 (le_refl _)).2 _ hnoe
                  (chainInv_addNode _ _ _ hs)
          · intro s hno hs
            cases e with
            | none =>
                simpa only [genVisit] using hs
            | some e1 =>
                have hte : sizeOf e1 < n := by
                  simp only [CAst.ret.sizeOf_spec, CAstOpt.some.sizeOf_spec] at ht
                  omega
                have hnoe : noIf e1 = true := by
                  simpa only [noIf, noIfOpt] using hno
                simp only [genVisit]
                exact ((IH (sizeOf e1) hte).1 e1 (le_refl _)).1 _ hnoe hs
      | compound items =>
          constructor
          · intro s hno hs
            cases items with
            | none => simpa only [visit] using hs
            | some l =>
                have htl : sizeOf l < n := by
                  simp only [CAst.compound.sizeOf_spec, CArgs.some.sizeOf_spec] at ht
                  omega
                have hnol : noIfList l = true := by
                  simpa only [noIf, noIfArgs] using hno
                simp only [visit]
                exact (IH (sizeOf l) htl).2 l (le_refl _) _ hnol hs
          · intro s hno hs
            cases items with
            | none => simpa only [genVisit] using hs
            | some l =>
                have htl : sizeOf l < n := by
                  simp only [CAst.compound.sizeOf_spec, CArgs.some.sizeOf_spec] at ht
                  omega
                have hnol : noIfList l = true := by
                  simpa only [noIf, noIfArgs] using hno
                simp only [genVisit]
                exact (IH (sizeOf l) htl).2 l (le_refl _) _ hnol hs
      | other cs =>
          have htl : sizeOf cs < n := by
            simp only [CAst.other.sizeOf_spec] at ht
            omega
          have hnol : ∀ (hno : noIf (CAst.other cs) = true), noIfList cs = true := by
            intro hno
            simpa only [noIf] using hno
          constructor
          · intro s hno hs
            simp only [visit]
            exact (IH (sizeOf cs) htl).2 cs (le_refl _) _ (hnol hno) hs
          · intro s hno hs
            simp only [genVisit]
            exact (IH (sizeOf cs) htl).2 cs (le_refl _) _ (hnol hno) hs
    · intro l hl
      cases l with
      | nil =>
          intro s hno hs
          simpa only [visitList] using hs
      | cons x xs =>
          have hts : sizeOf x < n ∧ sizeOf xs < n := by
            simp only [CList.cons.sizeOf_spec] at hl
            omega
          intro s hno hs
          have hsplit : noIf x = true ∧ noIfList xs = true := by
            simpa only [noIfList, Bool.and_eq_true] using hno
          simp only [visitList]
          exact (IH (sizeOf xs) hts.2).2 xs (le_refl _) _ hsplit.2
            (((IH (sizeOf x) hts.1).1 x (le_refl _)).1 _ hsplit.1 hs)


/-- C3 (counterexample): the claim says a branch-free run with N nodes has
exactly N−1 `control` edges even when a later `data` edge is added between
the same ordered pair (as for `x = x + 1`); but that run produces 2 nodes
and zero `control`-kind edges — the single consecutive edge was re-added as
`data`, overwriting its kind. -/
theorem control_edge_count_counterexample :
    noIf selfAssignTree = true ∧
    (PDGGenerator.init.generate selfAssignTree).2.nodes.length = 2 ∧
    ((PDGGenerator.init.generate selfAssignTree).2.edges.filter
      (fun e => e.2.2 = "control")).length = 0 := by
  decide

/-- C3 (amended): for every Builder run from a fresh generator on a tree
with no branching constructs, the produced node ids are `0 .. N−1` in
creation order and, for every `i < N−1`, an edge links the i-th created
node to the (i+1)-th; each such edge is of kind `control` or `data` — it is
created as `control` by `add_node`, but a `data` edge later added for the
same ordered pair (as for `x = x + 1`) overwrites the kind, so the count of
`control`-kind edges can be less than N−1. -/
theorem straight_line_consecutive_edges (t : CAst) (hno : noIf t = true) :
    ((PDGGenerator.init.generate t).2.nodes.map (fun x => x.1)
       = List.range (PDGGenerator.init.generate t).2.nodes.length) ∧
    (∀ i, i + 1 < (PDGGenerator.init.generate t).2.nodes.length →
      ∃ ty, (i, i + 1, ty) ∈ (PDGGenerator.init.generate t).2.edges ∧
        (ty = "control" ∨ ty = "data")) := by
  have hs0 : chainInv (⟨⟨[], []⟩, 0, [], none⟩ : VState) := by
    refine ⟨by simp, by simp, ?_, ?_⟩
    · intro i hi
      dsimp only at hi
      omega
    · intro e he
      simp at he
  have hfin := ((chain_aux (sizeOf t)).1 t (le_refl _)).1 _ hno hs0
  obtain ⟨hnodes, hcur, hedges, hkinds⟩ := hfin
  have hpdg : (PDGGenerator.init.generate t).2
      = (visit (⟨⟨[], []⟩, 0, [], none⟩ : VState) t).pdg := rfl
  rw [hpdg]
  have hlen : (visit (⟨⟨[], []⟩, 0, [], none⟩ : VState) t).pdg.nodes.length
      = (visit (⟨⟨[], []⟩, 0, [], none⟩ : VState) t).node_id := by
    have hml := congrArg List.length hnodes
    simpa using hml
  constructor
  · rw [hlen]
    exact hnodes
  · intro i hi
    rw [hlen] at hi
    obtain ⟨ty, hty⟩ := hedges i hi
    refine ⟨ty, hty, ?_⟩
    simpa using hkinds _ hty

/-- C3 (witness): the amended theorem applied to the branch-free scenario
tree `int x = 5; return x;`. -/
theorem straight_line_consecutive_edges_witness :
    noIf declReturnTree = true ∧
    (((PDGGenerator.init.generate declReturnTree).2.nodes.map (fun x => x.1)
       = List.range (PDGGenerator.init.generate declReturnTree).2.nodes.length) ∧
    (∀ i, i + 1 < (PDGGenerator.init.generate declReturnTree).2.nodes.length →
      ∃ ty, (i, i + 1, ty) ∈ (PDGGenerator.init.generate declReturnTree).2.edges ∧
        (ty = "control" ∨ ty = "data"))) :=
  ⟨by decide, straight_line_consecutive_edges declReturnTree (by decide)⟩
